import Mathlib

/-!
Verification of `position-effect-correction`.

Shallow embedding of the repository's two source files:

* `3.correct/correct_position_effect.py` — the statistical correction
  utilities `subtract_well_mean`, `mad_robustize_col`,
  `regress_out_cell_counts`;
* `1.load/load.py` — the `load` entry point (argument checks and the
  remote path / partitioning schema it builds; the actual network query
  is out of scope and represented by the `QuerySpec` it would issue).

Tables (`pandas.DataFrame`) are modelled as a list of well identifiers
(the `Metadata_Well` column) together with named numeric columns; numeric
values are exact rationals.  Column values that may be missing (`NaN`)
are modelled as `Option ℚ` where the source's semantics depends on
missingness (`mad_robustize_col`).
-/

namespace PositionEffect

/-- A table: the `Metadata_Well` column (strings) plus the remaining
named numeric columns, in order. -/
structure DataFrame where
  wellVals : List String
  cols : List (String × List ℚ)
deriving DecidableEq

/-- Embeds the regex `^(?!Metadata_)` used by
`df.filter(regex="^(?!Metadata_)")`: a column is a feature column exactly
when its name does not begin with the nine characters `Metadata_`. -/
def isFeature (name : String) : Bool :=
  !(List.isPrefixOf "Metadata_".data name.data)

/-- `l.mean()` for a numeric column: sum divided by length
(`0 / 0 = 0` for the empty column, which never arises below). -/
def meanList (l : List ℚ) : ℚ := l.sum / (l.length : ℚ)

/-- The values of column `vals` belonging to well `w`
(the group `groupby("Metadata_Well")` forms for key `w`). -/
def wellGroup (wells : List String) (vals : List ℚ) (w : String) : List ℚ :=
  ((wells.zip vals).filter (fun p => p.1 == w)).map Prod.snd

/-- `groupby("Metadata_Well")[c].transform(lambda x: x - x.mean())`:
each entry minus the mean of its own well group. -/
def centerByWell (wells : List String) (vals : List ℚ) : List ℚ :=
  (wells.zip vals).map (fun p => p.2 - meanList (wellGroup wells vals p.1))

/-- `subtract_well_mean` from `correct_position_effect.py`: every
feature column (name not starting with `Metadata_`) is replaced by its
per-well mean-centered version; all other columns are untouched. -/
def subtract_well_mean (ann_df : DataFrame) : DataFrame :=
  { ann_df with
    cols := ann_df.cols.map (fun c =>
      if isFeature c.1 then (c.1, centerByWell ann_df.wellVals c.2) else c) }

/-- The call `subtract_well_mean(df)` as seen by the caller: the Python
function mutates its argument in place (`ann_df[feature_cols] = ...`)
and then executes `return ann_df`, so the pair (returned value, final
state of the argument) consists of the same mutated table twice. -/
def subtract_well_mean_call (ann_df : DataFrame) : DataFrame × DataFrame :=
  (subtract_well_mean ann_df, subtract_well_mean ann_df)

/-- **C4.** On the table with `Metadata_Well = [A1, A1, A2]` and
`Feature_X = [1, 3, 5]`, well-mean subtraction yields
`Feature_X = [-1, 1, 0]` (and leaves the well column unchanged). -/
theorem subtract_well_mean_example :
    subtract_well_mean ⟨["A1", "A1", "A2"], [("Feature_X", [1, 3, 5])]⟩
      = ⟨["A1", "A1", "A2"], [("Feature_X", [-1, 1, 0])]⟩ := by
  have h1 : isFeature "Feature_X" = true := by decide
  simp [subtract_well_mean, centerByWell, wellGroup, meanList, h1]
  norm_num

/-! ### `mad_robustize_col` -/

/-- Insert a value into an already sorted list of rationals. -/
def insertOrd (x : ℚ) : List ℚ → List ℚ
  | [] => [x]
  | y :: ys => if x ≤ y then x :: y :: ys else y :: insertOrd x ys

/-- Sort a list of rationals (insertion sort). -/
def sortList : List ℚ → List ℚ
  | [] => []
  | x :: xs => insertOrd x (sortList xs)

/-- The median as `numpy`/`pandas` compute it on the given (non-missing)
values: middle element of the sorted list for odd length, average of the
two middle elements for even length (`0` for the empty list, where the
libraries would produce `NaN`; never reached below with a nonempty
column). -/
def medianList (xs : List ℚ) : ℚ :=
  let s := sortList xs
  if s.length = 0 then 0
  else if s.length % 2 = 1 then s.getD (s.length / 2) 0
  else (s.getD (s.length / 2 - 1) 0 + s.getD (s.length / 2) 0) / 2

/-- The non-missing entries of a column, in order (what
`nan_policy="omit"` and `skipna=True` restrict the computation to). -/
def validValues (col : List (Option ℚ)) : List ℚ := col.filterMap id

/-- `scipy.stats.median_abs_deviation(col, nan_policy="omit", scale=s)`:
the median of the absolute deviations from the median of the non-missing
values, divided by the scale argument. -/
def median_abs_deviation (col : List (Option ℚ)) (scale : ℚ) : ℚ :=
  let v := validValues col
  medianList (v.map (fun x => |x - medianList v|)) / scale

/-- `col.median()` (pandas, `skipna` by default). -/
def seriesMedian (col : List (Option ℚ)) : ℚ := medianList (validValues col)

/-- The literal `1.4826` appearing in the source's `scale=1/1.4826`. -/
def madScale : ℚ := 14826 / 10000

/-- `mad_robustize_col` from `correct_position_effect.py`:
`(col - col.median()) / (col_mad + epsilon)` with
`col_mad = median_abs_deviation(col, nan_policy="omit", scale=1/1.4826)`.
The scalar statistics are computed from the non-missing entries; the
elementwise arithmetic maps missing entries to missing entries. -/
def mad_robustize_col (col : List (Option ℚ)) (epsilon : ℚ) : List (Option ℚ) :=
  let col_mad := median_abs_deviation col (1 / madScale)
  col.map (Option.map (fun v => (v - seriesMedian col) / (col_mad + epsilon)))

/-- Modelled from the spec's words, for comparison with the source's
`median_abs_deviation` call: "a normal-consistent scaled median absolute
deviation (scale factor ≈1/1.4826)", i.e. the raw MAD multiplied by
about `1.4826`. -/
def madSpecScaled (col : List ℚ) : ℚ :=
  madScale * medianList (col.map (fun v => |v - medianList col|))

/-! ### Basic lemmas about columns with missing entries -/

theorem validValues_map_some (col : List ℚ) : validValues (col.map some) = col := by
  simp [validValues, List.filterMap_map]

theorem validValues_insert_none (pre post : List (Option ℚ)) :
    validValues (pre ++ none :: post) = validValues (pre ++ post) := by
  simp [validValues, List.filterMap_append]

/-- **C3.** For every numeric column and every epsilon,
`mad_robustize_col` returns elementwise
`(value - median(column)) / (mad + epsilon)` where `median` is the column
median and `mad` is the median absolute deviation rescaled to be
normal-consistent (divided by the scale factor `1/1.4826`, i.e.
multiplied by `1.4826`): the source's computation agrees with the
spec-side `madSpecScaled` formula. -/
theorem mad_robustize_col_formula (col : List ℚ) (epsilon : ℚ) :
    mad_robustize_col (col.map some) epsilon
      = col.map (fun v => some ((v - medianList col) / (madSpecScaled col + epsilon))) := by
  have hm : madScale ≠ 0 := by norm_num [madScale]
  have h1 : median_abs_deviation (col.map some) madScale⁻¹ = madSpecScaled col := by
    rw [median_abs_deviation, madSpecScaled, validValues_map_some]
    field_simp
    ring
  simp [mad_robustize_col, one_div, h1, seriesMedian, validValues_map_some, List.map_map,
    Function.comp]

/-- **C7.** Missing entries are excluded from the median and MAD
computations (inserting a missing entry anywhere leaves both scalar
statistics unchanged), and `mad_robustize_col` is positionwise
missingness-preserving: position `i` of the output is non-missing
exactly when position `i` of the input is (in particular, when
`mad + epsilon` is nonzero every non-missing input position yields a
non-missing rational). -/
theorem mad_robustize_col_missing (pre post : List (Option ℚ)) (epsilon : ℚ)
    (hden : median_abs_deviation (pre ++ none :: post) (1 / madScale) + epsilon ≠ 0) :
    seriesMedian (pre ++ none :: post) = seriesMedian (pre ++ post)
      ∧ median_abs_deviation (pre ++ none :: post) (1 / madScale)
          = median_abs_deviation (pre ++ post) (1 / madScale)
      ∧ (mad_robustize_col (pre ++ none :: post) epsilon).length
          = (pre ++ none :: post).length
      ∧ ∀ (i : ℕ) (h : i < (pre ++ none :: post).length)
          (h2 : i < (mad_robustize_col (pre ++ none :: post) epsilon).length),
          ((mad_robustize_col (pre ++ none :: post) epsilon).get ⟨i, h2⟩).isSome
            = ((pre ++ none :: post).get ⟨i, h⟩).isSome := by
  have hmap : mad_robustize_col (pre ++ none :: post) epsilon
      = (pre ++ none :: post).map (Option.map (fun v =>
          (v - seriesMedian (pre ++ none :: post)) /
            (median_abs_deviation (pre ++ none :: post) (1 / madScale) + epsilon))) := rfl
  refine ⟨?_, ?_, ?_, ?_⟩
  · rw [seriesMedian, seriesMedian, validValues_insert_none]
  · rw [median_abs_deviation, median_abs_deviation, validValues_insert_none]
  · rw [hmap, List.length_map]
  · intro i h h2
    simp only [hmap, List.get_eq_getElem, List.getElem_map]
    cases hv : (pre ++ none :: post)[i] <;> simp

/-- Witness for `mad_robustize_col_missing` at the column
`[1, NaN, 2, 3]` with `epsilon = 0`. -/
theorem mad_robustize_col_missing_witness :
    (median_abs_deviation ([some 1] ++ none :: [some 2, some 3]) (1 / madScale) + 0 ≠ 0)
      ∧ seriesMedian ([some 1] ++ none :: [some 2, some 3])
          = seriesMedian ([some 1] ++ [some 2, some 3]) :=
  ⟨by norm_num [median_abs_deviation, validValues, medianList, sortList, insertOrd, madScale],
   (mad_robustize_col_missing [some 1] [some 2, some 3] 0
      (by norm_num [median_abs_deviation, validValues, medianList, sortList, insertOrd,
        madScale])).1⟩

/-! ### List-algebra helper lemmas -/

theorem zip_map_snd {α β γ : Type} (a : List α) (b : List β) (f : α × β → γ) :
    a.zip ((a.zip b).map f) = (a.zip b).map (fun p => (p.1, f p)) := by
  induction a generalizing b with
  | nil => simp
  | cons x xs ih =>
    cases b with
    | nil => simp
    | cons y ys => simp [ih]

theorem sum_map_sub {α : Type} (l : List α) (f g : α → ℚ) :
    (l.map (fun a => f a - g a)).sum = (l.map f).sum - (l.map g).sum := by
  induction l with
  | nil => simp
  | cons x xs ih => simp [ih]; ring

theorem sum_map_const {α : Type} (l : List α) (c : ℚ) :
    (l.map (fun _ => c)).sum = l.length * c := by
  induction l with
  | nil => simp
  | cons x xs ih => simp [ih]; ring

/-- Re-centering a list by its own mean gives a list of mean zero. -/
theorem meanList_center (l : List ℚ) :
    meanList (l.map (fun v => v - meanList l)) = 0 := by
  rcases eq_or_ne l [] with h | h
  · simp [h, meanList]
  · have hn : (l.length : ℚ) ≠ 0 :=
      Nat.cast_ne_zero.mpr (by simpa [List.length_eq_zero] using h)
    have hsum : (l.map (fun v => v - meanList l)).sum = 0 := by
      have hs := sum_map_sub l id (fun _ => meanList l)
      simp only [List.map_id] at hs
      rw [show (l.map fun v => v - meanList l)
            = (l.map fun v => id v - (fun _ : ℚ => meanList l) v) from rfl,
        hs, sum_map_const, meanList]
      field_simp
    rw [meanList, hsum, zero_div]

/-- The `w`-group of a per-well-centered column is the `w`-group of the
original column re-centered by that group's mean. -/
theorem wellGroup_center (wells : List String) (vals : List ℚ) (w : String) :
    wellGroup wells (centerByWell wells vals) w
      = (wellGroup wells vals w).map (fun v => v - meanList (wellGroup wells vals w)) := by
  rw [wellGroup, centerByWell, zip_map_snd, List.filter_map]
  have hfil : ((wells.zip vals).filter
      ((fun p => p.1 == w) ∘ (fun p => (p.1, p.2 - meanList (wellGroup wells vals p.1)))))
      = (wells.zip vals).filter (fun p => p.1 == w) := rfl
  rw [hfil, List.map_map, wellGroup, List.map_map]
  apply List.map_congr_left
  intro p hp
  have hpw : p.1 = w := by
    have := List.of_mem_filter hp
    simpa using this
  simp [Function.comp, hpw, wellGroup]

theorem centered_group_mean_zero (wells : List String) (vals : List ℚ) (w : String) :
    meanList (wellGroup wells (centerByWell wells vals) w) = 0 := by
  rw [wellGroup_center, meanList_center]

/-- The `j`-th column of `subtract_well_mean df`, when it is a feature
column, is the per-well-centered original column. -/
theorem subtract_well_mean_get_feature (df : DataFrame) (j : ℕ) (hj : j < df.cols.length)
    (hj2 : j < (subtract_well_mean df).cols.length)
    (hfeat : isFeature (df.cols.get ⟨j, hj⟩).1 = true) :
    (subtract_well_mean df).cols.get ⟨j, hj2⟩
      = ((df.cols.get ⟨j, hj⟩).1, centerByWell df.wellVals (df.cols.get ⟨j, hj⟩).2) := by
  have hf : isFeature df.cols[j].1 = true := by simpa using hfeat
  simp [subtract_well_mean, hf]

/-- A well occurring exactly once yields a singleton group containing
that row's value. -/
theorem wellGroup_singleton (wells : List String) (vals : List ℚ)
    (h : wells.length = vals.length) (i : ℕ) (hi : i < wells.length) (hiv : i < vals.length)
    (hcount : wells.count (wells.get ⟨i, hi⟩) = 1) :
    wellGroup wells vals (wells.get ⟨i, hi⟩) = [vals.get ⟨i, hiv⟩] := by
  induction wells generalizing vals i with
  | nil => exact absurd hi (by simp)
  | cons u ws ih =>
    cases vals with
    | nil => simp at h
    | cons v vs =>
      have hlen : ws.length = vs.length := by simpa using h
      cases i with
      | zero =>
        simp only [List.get_eq_getElem, List.getElem_cons_zero] at hcount ⊢
        have hz : ws.count u = 0 := by simpa using hcount
        have hnotin : u ∉ ws := by
          rw [← List.count_eq_zero]
          exact hz
        have hempty : (ws.zip vs).filter (fun p => p.1 == u) = [] := by
          rw [List.filter_eq_nil_iff]
          rintro ⟨a, b⟩ hp
          have ha : a ∈ ws := (List.of_mem_zip hp).1
          simp only [beq_iff_eq]
          intro heq
          exact hnotin (heq ▸ ha)
        simp [wellGroup, List.filter_cons, hempty]
      | succ n =>
        have hn : n < ws.length := by simpa using hi
        have hnv : n < vs.length := by simpa using hiv
        simp only [List.get_eq_getElem, List.getElem_cons_succ] at hcount ⊢
        by_cases hu : u = ws[n]
        · exfalso
          have hmem : ws[n] ∈ ws := List.getElem_mem hn
          rw [List.count_cons] at hcount
          have hcz : ws.count ws[n] = 0 := by
            simp [hu] at hcount
            omega
          exact absurd ((List.count_eq_zero).mp hcz) (by simp [hmem])
        · have hct : ws.count ws[n] = 1 := by
            rw [List.count_cons] at hcount
            simpa [hu] using hcount
          have hres := ih vs hlen n hn hnv (by simpa using hct)
          simp only [List.get_eq_getElem] at hres
          rw [wellGroup]
          simp only [List.zip_cons_cons, List.filter_cons]
          have hne : ((u, v).1 == ws[n]) = false := by
            simpa using hu
          rw [hne]
          simpa [wellGroup] using hres

theorem meanList_single (x : ℚ) : meanList [x] = x := by
  simp [meanList]

/-- Centering kills the value of any row whose well occurs exactly once. -/
theorem centerByWell_singleton (wells : List String) (vals : List ℚ)
    (h : wells.length = vals.length) (i : ℕ) (hi : i < wells.length) (hiv : i < vals.length)
    (hcount : wells.count (wells.get ⟨i, hi⟩) = 1)
    (hc : i < (centerByWell wells vals).length) :
    (centerByWell wells vals).get ⟨i, hc⟩ = 0 := by
  have hzl : i < (wells.zip vals).length := by
    simpa [List.length_zip, h] using hiv
  simp only [centerByWell, List.get_eq_getElem, List.getElem_map, List.getElem_zip]
  have hws := wellGroup_singleton wells vals h i hi hiv hcount
  simp only [List.get_eq_getElem] at hws
  rw [hws, meanList_single]
  ring

/-- **C5.** In the output of `subtract_well_mean`, every row whose well
occurs exactly once has value exactly `0` in every feature column. -/
theorem subtract_well_mean_singleton_zero (df : DataFrame) (j : ℕ) (hj : j < df.cols.length)
    (hfeat : isFeature (df.cols.get ⟨j, hj⟩).1 = true)
    (hlen : (df.cols.get ⟨j, hj⟩).2.length = df.wellVals.length)
    (i : ℕ) (hi : i < df.wellVals.length)
    (hcount : df.wellVals.count (df.wellVals.get ⟨i, hi⟩) = 1)
    (hj2 : j < (subtract_well_mean df).cols.length)
    (hi2 : i < ((subtract_well_mean df).cols.get ⟨j, hj2⟩).2.length) :
    ((subtract_well_mean df).cols.get ⟨j, hj2⟩).2.get ⟨i, hi2⟩ = 0 := by
  have hcol := subtract_well_mean_get_feature df j hj hj2 hfeat
  have hsnd : ((subtract_well_mean df).cols.get ⟨j, hj2⟩).2
      = centerByWell df.wellVals (df.cols.get ⟨j, hj⟩).2 := congrArg Prod.snd hcol
  rw [List.get_of_eq hsnd]
  exact centerByWell_singleton df.wellVals (df.cols.get ⟨j, hj⟩).2 hlen.symm i hi
    (hlen ▸ hi) hcount _

/-- Witness for `subtract_well_mean_singleton_zero`: on wells
`[A1, A2, A2]` with feature `F = [5, 1, 2]`, row `0` (the only `A1` row)
becomes `0`. -/
theorem subtract_well_mean_singleton_zero_witness :
    isFeature "F" = true
      ∧ (["A1", "A2", "A2"] : List String).count "A1" = 1
      ∧ ((subtract_well_mean ⟨["A1", "A2", "A2"], [("F", [5, 1, 2])]⟩).cols.get
          ⟨0, by simp [subtract_well_mean]⟩).2.get
          ⟨0, by
            have hf : isFeature "F" = true := by decide
            simp [subtract_well_mean, centerByWell, hf]⟩ = 0 :=
  ⟨by decide, by decide,
    subtract_well_mean_singleton_zero ⟨["A1", "A2", "A2"], [("F", [5, 1, 2])]⟩ 0
      (by decide) (by decide) (by decide) 0 (by decide) (by decide)
      (by simp [subtract_well_mean])
      (by
        have hf : isFeature "F" = true := by decide
        simp [subtract_well_mean, centerByWell, hf])⟩

/-- **C6.** After `subtract_well_mean`, the per-well mean of every
feature column is exactly `0` (in exact rational arithmetic), for every
well group. -/
theorem subtract_well_mean_group_mean_zero (df : DataFrame) (j : ℕ) (hj : j < df.cols.length)
    (hfeat : isFeature (df.cols.get ⟨j, hj⟩).1 = true)
    (w : String) (hw : w ∈ df.wellVals)
    (hj2 : j < (subtract_well_mean df).cols.length) :
    meanList (wellGroup df.wellVals ((subtract_well_mean df).cols.get ⟨j, hj2⟩).2 w) = 0 := by
  have hsnd : ((subtract_well_mean df).cols.get ⟨j, hj2⟩).2
      = centerByWell df.wellVals (df.cols.get ⟨j, hj⟩).2 :=
    congrArg Prod.snd (subtract_well_mean_get_feature df j hj hj2 hfeat)
  rw [hsnd, centered_group_mean_zero]

/-- Witness for `subtract_well_mean_group_mean_zero` on the example
table of the spec. -/
theorem subtract_well_mean_group_mean_zero_witness :
    isFeature "F" = true
      ∧ "A1" ∈ (["A1", "A1", "A2"] : List String)
      ∧ meanList (wellGroup ["A1", "A1", "A2"]
          ((subtract_well_mean ⟨["A1", "A1", "A2"], [("F", [1, 3, 5])]⟩).cols.get
            ⟨0, by simp [subtract_well_mean]⟩).2 "A1") = 0 :=
  ⟨by decide, by decide,
    subtract_well_mean_group_mean_zero ⟨["A1", "A1", "A2"], [("F", [1, 3, 5])]⟩ 0
      (by decide) (by decide) "A1" (by decide) (by simp [subtract_well_mean])⟩

/-- **C10.** `subtract_well_mean` returns the very table it mutated in
place (returned value = final state of the argument), leaves
`Metadata_`-prefixed columns unchanged, preserves the column names in
order, and preserves the number of rows of every column. -/
theorem subtract_well_mean_frame (df : DataFrame)
    (hlen : ∀ c ∈ df.cols, c.2.length = df.wellVals.length) :
    (subtract_well_mean_call df).1 = (subtract_well_mean_call df).2
      ∧ (subtract_well_mean df).wellVals = df.wellVals
      ∧ (subtract_well_mean df).cols.map Prod.fst = df.cols.map Prod.fst
      ∧ (∀ c ∈ df.cols, isFeature c.1 = false → c ∈ (subtract_well_mean df).cols)
      ∧ (∀ c ∈ (subtract_well_mean df).cols, c.2.length = df.wellVals.length) := by
  refine ⟨rfl, rfl, ?_, ?_, ?_⟩
  · rw [subtract_well_mean]
    simp only [List.map_map]
    apply List.map_congr_left
    intro c hc
    by_cases hf : isFeature c.1 <;> simp [Function.comp, hf]
  · intro c hc hmf
    have heq : (if isFeature c.1 then (c.1, centerByWell df.wellVals c.2) else c) = c := by
      simp [hmf]
    rw [subtract_well_mean]
    exact heq ▸ List.mem_map_of_mem _ hc
  · intro c hc
    rw [subtract_well_mean] at hc
    obtain ⟨c0, hc0, rfl⟩ := List.mem_map.mp hc
    by_cases hf : isFeature c0.1
    · simp [hf, centerByWell, hlen c0 hc0]
    · simp [hf, hlen c0 hc0]

/-- Witness for `subtract_well_mean_frame` on a two-column table. -/
theorem subtract_well_mean_frame_witness :
    (∀ c ∈ ([("Metadata_Plate", [7, 8]), ("F", [1, 2])] : List (String × List ℚ)),
        c.2.length = (["A1", "A2"] : List String).length)
      ∧ (subtract_well_mean ⟨["A1", "A2"], [("Metadata_Plate", [7, 8]), ("F", [1, 2])]⟩).cols.map
          Prod.fst = [("Metadata_Plate", [7, 8]), ("F", [1, 2])].map Prod.fst :=
  ⟨by decide,
    (subtract_well_mean_frame ⟨["A1", "A2"], [("Metadata_Plate", [7, 8]), ("F", [1, 2])]⟩
      (by decide)).2.2.1⟩

/-! ### `regress_out_cell_counts` -/

/-- Residuals of the OLS fit `ols("y ~ x").fit()` with the intercept
patsy adds by default: with `Sxx = Σ(xᵢ - x̄)²` and
`Sxy = Σ(xᵢ - x̄)(yᵢ - ȳ)`, the residual at row `i` is
`yᵢ - ȳ - (Sxy/Sxx)(xᵢ - x̄)`.  When the regressor is constant
(`Sxx = 0`) the design matrix is rank-deficient and the default
pseudoinverse fit projects onto the intercept alone, leaving
residuals `yᵢ - ȳ`. -/
def ols_resid (x y : List ℚ) : List ℚ :=
  let xbar := meanList x
  let ybar := meanList y
  let sxx := (x.map (fun a => (a - xbar) ^ 2)).sum
  let sxy := ((x.zip y).map (fun p => (p.1 - xbar) * (p.2 - ybar))).sum
  if sxx = 0 then y.map (fun b => b - ybar)
  else (x.zip y).map (fun p => p.2 - ybar - sxy / sxx * (p.1 - xbar))

/-- `df[name]`: the values of the first column called `name`
(`[]` when absent; callers below establish presence). -/
def getColVals : List (String × List ℚ) → String → List ℚ
  | [], _ => []
  | c :: cs, name => if c.1 == name then c.2 else getColVals cs name

/-- `df[name] = vals`: replace the values of every column called
`name`. -/
def setCol (cols : List (String × List ℚ)) (name : String) (vals : List ℚ) :
    List (String × List ℚ) :=
  cols.map (fun c => if c.1 == name then (name, vals) else c)

/-- One iteration of the loop in `regress_out_cell_counts`:
`df[feature] = ols(f"{feature} ~ {cc_col}", data=df).fit().resid`,
reading both columns from the current state of the table. -/
def regressStep (cc_col : String) (cols : List (String × List ℚ)) (feature : String) :
    List (String × List ℚ) :=
  setCol cols feature (ols_resid (getColVals cols cc_col) (getColVals cols feature))

/-- `df.filter(regex="^(?!Metadata_)").columns`, evaluated before the
loop starts. -/
def featureCols (cols : List (String × List ℚ)) : List String :=
  (cols.filter (fun c => isFeature c.1)).map Prod.fst

/-- `regress_out_cell_counts` from `correct_position_effect.py`: loop
over the feature columns in order, replacing each by its OLS residuals
against the current `cc_col` column, then optionally rename `cc_col` to
`cc_rename`. -/
def regress_out_cell_counts (df : DataFrame) (cc_col : String) (cc_rename : Option String) :
    DataFrame :=
  let fs := featureCols df.cols
  let cols1 := fs.foldl (regressStep cc_col) df.cols
  let cols2 := match cc_rename with
    | none => cols1
    | some nm => cols1.map (fun c => if c.1 == cc_col then (nm, c.2) else c)
  { df with cols := cols2 }

/-- The numerator of the Pearson correlation of two columns paired
rowwise, `Σ (xᵢ - x̄)(yᵢ - ȳ)`: the correlation is this divided by
`√(Σ(xᵢ - x̄)²) · √(Σ(yᵢ - ȳ)²)`, so it is zero exactly when this
numerator is zero (whenever the correlation is defined at all). -/
def covList (x y : List ℚ) : ℚ :=
  ((x.zip y).map (fun p => (p.1 - meanList x) * (p.2 - meanList y))).sum

/-- `Σ (xᵢ - x̄)²`, the square of the denominator factor of the Pearson
correlation contributed by column `x`. -/
def varList (x : List ℚ) : ℚ :=
  (x.map (fun a => (a - meanList x) ^ 2)).sum

/-! ### Lemmas about `setCol`, `getColVals` and the regression loop -/

theorem names_setCol (cols : List (String × List ℚ)) (nm : String) (v : List ℚ) :
    (setCol cols nm v).map Prod.fst = cols.map Prod.fst := by
  rw [setCol, List.map_map]
  apply List.map_congr_left
  intro c hc
  by_cases h : c.1 = nm <;> simp [Function.comp, h]

theorem length_setCol (cols : List (String × List ℚ)) (nm : String) (v : List ℚ) :
    (setCol cols nm v).length = cols.length := by
  simp [setCol]

theorem getColVals_setCol_ne (cols : List (String × List ℚ)) (nm nm2 : String) (v : List ℚ)
    (h : nm2 ≠ nm) :
    getColVals (setCol cols nm v) nm2 = getColVals cols nm2 := by
  induction cols with
  | nil => simp [setCol, getColVals]
  | cons c cs ih =>
    rw [setCol, List.map_cons]
    by_cases hc : c.1 = nm
    · rw [if_pos (by simpa using hc)]
      rw [getColVals, getColVals]
      rw [if_neg (by simpa using Ne.symm h), if_neg (by simp [hc]; exact Ne.symm h)]
      exact ih
    · rw [if_neg (by simpa using hc)]
      by_cases h2 : c.1 = nm2
      · rw [getColVals, getColVals, if_pos (by simpa using h2), if_pos (by simpa using h2)]
      · rw [getColVals, getColVals, if_neg (by simpa using h2), if_neg (by simpa using h2)]
        exact ih

theorem getColVals_setCol_self (cols : List (String × List ℚ)) (nm : String) (v : List ℚ)
    (h : nm ∈ cols.map Prod.fst) :
    getColVals (setCol cols nm v) nm = v := by
  induction cols with
  | nil => simp at h
  | cons c cs ih =>
    rw [setCol, List.map_cons]
    by_cases hc : c.1 = nm
    · rw [if_pos (by simpa using hc), getColVals, if_pos (by simp)]
    · rw [if_neg (by simpa using hc), getColVals, if_neg (by simpa using hc)]
      apply ih
      rcases List.mem_map.mp h with ⟨d, hd, hdn⟩
      rcases List.mem_cons.mp hd with h1 | h1
      · exact absurd (h1 ▸ hdn) hc
      · exact List.mem_map.mpr ⟨d, h1, hdn⟩

theorem get_setCol (cols : List (String × List ℚ)) (nm : String) (v : List ℚ)
    (j : ℕ) (hj : j < cols.length) (hj2 : j < (setCol cols nm v).length) :
    (setCol cols nm v).get ⟨j, hj2⟩
      = if (cols.get ⟨j, hj⟩).1 = nm then (nm, v) else cols.get ⟨j, hj⟩ := by
  simp only [setCol, List.get_eq_getElem, List.getElem_map]
  by_cases h : cols[j].1 = nm <;> simp [h]

/-- With distinct column names, `df[name]` of the `j`-th column's name is
the `j`-th column's values. -/
theorem getColVals_of_get (cols : List (String × List ℚ))
    (hN : (cols.map Prod.fst).Nodup) (j : ℕ) (hj : j < cols.length) :
    getColVals cols (cols.get ⟨j, hj⟩).1 = (cols.get ⟨j, hj⟩).2 := by
  induction cols generalizing j with
  | nil => simp at hj
  | cons c cs ih =>
    cases j with
    | zero => simp [getColVals]
    | succ n =>
      have hn : n < cs.length := by simpa using hj
      simp only [List.get_eq_getElem, List.getElem_cons_succ]
      have hne : c.1 ≠ cs[n].1 := by
        intro he
        have : cs[n].1 ∈ cs.map Prod.fst :=
          List.mem_map.mpr ⟨cs[n], List.getElem_mem hn, rfl⟩
        rw [List.map_cons, List.nodup_cons] at hN
        exact hN.1 (he ▸ this)
      rw [getColVals, if_neg (by simpa using hne)]
      have := ih (by rw [List.map_cons, List.nodup_cons] at hN; exact hN.2) n hn
      simpa using this

theorem names_foldl (cc : String) (fs : List String) (cols : List (String × List ℚ)) :
    (fs.foldl (regressStep cc) cols).map Prod.fst = cols.map Prod.fst := by
  induction fs generalizing cols with
  | nil => rfl
  | cons f fs ih =>
    rw [List.foldl_cons, ih, regressStep, names_setCol]

theorem length_foldl (cc : String) (fs : List String) (cols : List (String × List ℚ)) :
    (fs.foldl (regressStep cc) cols).length = cols.length := by
  have h1 := congrArg List.length (names_foldl cc fs cols)
  simpa using h1

/-- A column whose name is never regressed keeps its values through the
loop. -/
theorem getColVals_foldl_ne (cc : String) (fs : List String) (cols : List (String × List ℚ))
    (nm : String) (hnm : nm ∉ fs) :
    getColVals (fs.foldl (regressStep cc) cols) nm = getColVals cols nm := by
  induction fs generalizing cols with
  | nil => rfl
  | cons f fs ih =>
    rw [List.foldl_cons]
    rw [ih (regressStep cc cols f) (fun h => hnm (List.mem_cons_of_mem f h))]
    rw [regressStep, getColVals_setCol_ne]
    exact fun h => hnm (h ▸ List.mem_cons_self f fs)

theorem get_foldl_ne (cc : String) (fs : List String) (cols : List (String × List ℚ))
    (j : ℕ) (hj : j < cols.length) (hj2 : j < (fs.foldl (regressStep cc) cols).length)
    (hnm : (cols.get ⟨j, hj⟩).1 ∉ fs) :
    (fs.foldl (regressStep cc) cols).get ⟨j, hj2⟩ = cols.get ⟨j, hj⟩ := by
  induction fs generalizing cols with
  | nil => rfl
  | cons f fs ih =>
    have hjs : j < (regressStep cc cols f).length := by
      simp only [regressStep, length_setCol]
      exact hj
    have hstep : (regressStep cc cols f).get ⟨j, hjs⟩ = cols.get ⟨j, hj⟩ := by
      simp only [regressStep]
      rw [get_setCol cols f _ j hj hjs, if_neg ?hne]
      case hne =>
        intro h
        exact hnm (by rw [h]; exact List.mem_cons_self f fs)
    have hrec := ih (regressStep cc cols f) hjs (by simpa using hj2)
      (by rw [hstep]; exact fun h => hnm (List.mem_cons_of_mem f h))
    exact hrec.trans hstep

/-- The heart of the loop analysis: if the `j`-th column's name `f`
occurs exactly once in the processing list (as `l1 ++ f :: l2`) and the
regressor column `cc` is not modified before `f`'s turn, then after the
loop the `j`-th column holds the residuals of its original values
against the original `cc` values. -/
theorem foldl_process_once (cc f : String) (cols : List (String × List ℚ))
    (hN : (cols.map Prod.fst).Nodup) (l1 l2 : List String)
    (hf1 : f ∉ l1) (hf2 : f ∉ l2) (hcc : cc ∉ l1)
    (j : ℕ) (hj : j < cols.length)
    (hj2 : j < ((l1 ++ f :: l2).foldl (regressStep cc) cols).length)
    (hname : (cols.get ⟨j, hj⟩).1 = f) :
    ((l1 ++ f :: l2).foldl (regressStep cc) cols).get ⟨j, hj2⟩
      = (f, ols_resid (getColVals cols cc) (cols.get ⟨j, hj⟩).2) := by
  have hsplit : (l1 ++ f :: l2).foldl (regressStep cc) cols
      = l2.foldl (regressStep cc) (regressStep cc (l1.foldl (regressStep cc) cols) f) := by
    rw [List.foldl_append, List.foldl_cons]
  set mid := l1.foldl (regressStep cc) cols with hmid
  have hjm : j < mid.length := by rw [hmid, length_foldl]; exact hj
  have hmidj : mid.get ⟨j, hjm⟩ = cols.get ⟨j, hj⟩ :=
    get_foldl_ne cc l1 cols j hj hjm (hname ▸ hf1)
  have hNm : (mid.map Prod.fst).Nodup := by rw [hmid, names_foldl]; exact hN
  have hccm : getColVals mid cc = getColVals cols cc :=
    getColVals_foldl_ne cc l1 cols cc hcc
  have hfm : getColVals mid f = (cols.get ⟨j, hj⟩).2 := by
    have h2 := getColVals_of_get mid hNm j hjm
    rw [hmidj, hname] at h2
    exact h2
  have hjr : j < (regressStep cc mid f).length := by
    simp only [regressStep, length_setCol]
    exact hjm
  have hstep : (regressStep cc mid f).get ⟨j, hjr⟩
      = (f, ols_resid (getColVals cols cc) (cols.get ⟨j, hj⟩).2) := by
    simp only [regressStep]
    rw [get_setCol mid f _ j hjm hjr, hmidj, if_pos hname, hccm, hfm]
  have hjl : j < (l2.foldl (regressStep cc) (regressStep cc mid f)).length := by
    rw [length_foldl]
    simp only [regressStep, length_setCol]
    rw [hmid, length_foldl]
    exact hj
  rw [List.get_of_eq hsplit]
  exact (get_foldl_ne cc l2 (regressStep cc mid f) j hjr hjl
    (by rw [hstep]; exact hf2)).trans hstep

/-! ### OLS algebra -/

theorem sum_center (l : List ℚ) : (l.map (fun v => v - meanList l)).sum = 0 := by
  rcases eq_or_ne l [] with h | h
  · simp [h]
  · have hn : (l.length : ℚ) ≠ 0 :=
      Nat.cast_ne_zero.mpr (by simpa [List.length_eq_zero] using h)
    have hs := sum_map_sub l id (fun _ => meanList l)
    simp only [List.map_id] at hs
    rw [show (l.map fun v => v - meanList l)
          = (l.map fun v => id v - (fun _ : ℚ => meanList l) v) from rfl,
      hs, sum_map_const, meanList]
    field_simp

theorem sum_sq_nonneg (l : List ℚ) (c : ℚ) : 0 ≤ (l.map (fun a => (a - c) ^ 2)).sum := by
  induction l with
  | nil => simp
  | cons x xs ih =>
    simp only [List.map_cons, List.sum_cons]
    have hx := sq_nonneg (x - c)
    linarith

/-- A zero sum of squared deviations forces every entry to equal the
reference value (how a constant regressor is recognised). -/
theorem eq_of_sum_sq_zero (l : List ℚ) (c : ℚ)
    (h : (l.map (fun a => (a - c) ^ 2)).sum = 0) : ∀ a ∈ l, a = c := by
  induction l with
  | nil => simp
  | cons x xs ih =>
    simp only [List.map_cons, List.sum_cons] at h
    have h1 : 0 ≤ (xs.map (fun a => (a - c) ^ 2)).sum := sum_sq_nonneg xs c
    have h2 := sq_nonneg (x - c)
    have hx : (x - c) ^ 2 = 0 := by linarith
    have hxc : x = c := by
      have : x - c = 0 := by
        have h2z : (2 : ℕ) ≠ 0 := by norm_num
        exact (pow_eq_zero_iff h2z).mp hx
      linarith [this]
    intro a ha
    rcases List.mem_cons.mp ha with h3 | h3
    · exact h3 ▸ hxc
    · exact ih (by linarith) a h3

theorem zip_self {α : Type} (l : List α) : l.zip l = l.map (fun a => (a, a)) := by
  induction l with
  | nil => rfl
  | cons x xs ih => simp [ih]

theorem map_zip_fst {α β γ : Type} (x : List α) (y : List β) (h : x.length = y.length)
    (f : α → γ) : (x.zip y).map (fun p => f p.1) = x.map f := by
  rw [show (fun p : α × β => f p.1) = f ∘ Prod.fst from rfl, ← List.map_map,
    List.map_fst_zip x y h.le]

theorem map_zip_snd {α β γ : Type} (x : List α) (y : List β) (h : x.length = y.length)
    (f : β → γ) : (x.zip y).map (fun p => f p.2) = y.map f := by
  rw [show (fun p : α × β => f p.2) = f ∘ Prod.snd from rfl, ← List.map_map,
    List.map_snd_zip x y h.ge]

/-- Regressing a column on itself leaves residuals that are identically
zero (the fit is perfect, also through the rank-deficient branch). -/
theorem ols_resid_self (y : List ℚ) : ols_resid y y = y.map (fun _ => 0) := by
  simp only [ols_resid]
  by_cases hs : (y.map (fun a => (a - meanList y) ^ 2)).sum = 0
  · rw [if_pos hs]
    apply List.map_congr_left
    intro a ha
    rw [eq_of_sum_sq_zero y (meanList y) hs a ha]
    ring
  · rw [if_neg hs]
    have hsxy : ((y.zip y).map (fun p => (p.1 - meanList y) * (p.2 - meanList y))).sum
        = (y.map (fun a => (a - meanList y) ^ 2)).sum := by
      rw [zip_self, List.map_map]
      apply congrArg
      apply List.map_congr_left
      intro b hb
      simp only [Function.comp]
      ring
    rw [hsxy, zip_self, List.map_map]
    apply List.map_congr_left
    intro a ha
    simp only [Function.comp]
    field_simp

theorem sum_eq_zero_of_all_zero {α : Type} (l : List α) (f : α → ℚ)
    (h : ∀ a ∈ l, f a = 0) : (l.map f).sum = 0 := by
  rw [List.map_congr_left h]
  simp

/-- OLS residuals are exactly orthogonal to the (centered) regressor:
the Pearson-correlation numerator of the regressor with the residuals
vanishes. -/
theorem covList_ols_resid (x y : List ℚ) (h : x.length = y.length) :
    covList x (ols_resid x y) = 0 := by
  by_cases hs : (x.map (fun a => (a - meanList x) ^ 2)).sum = 0
  · have hr : ols_resid x y = y.map (fun b => b - meanList y) := by
      simp only [ols_resid]
      rw [if_pos hs]
    rw [hr, covList]
    apply sum_eq_zero_of_all_zero
    intro p hp
    rw [eq_of_sum_sq_zero x (meanList x) hs p.1 (List.of_mem_zip hp).1]
    ring
  · have hr : ols_resid x y = (x.zip y).map (fun p => p.2 - meanList y -
        (((x.zip y).map (fun p => (p.1 - meanList x) * (p.2 - meanList y))).sum /
          (x.map (fun a => (a - meanList x) ^ 2)).sum) * (p.1 - meanList x)) := by
      simp only [ols_resid]
      rw [if_neg hs]
    generalize hc : (((x.zip y).map (fun p => (p.1 - meanList x) * (p.2 - meanList y))).sum /
        (x.map (fun a => (a - meanList x) ^ 2)).sum) = c at hr
    have hrsum : (ols_resid x y).sum = 0 := by
      rw [hr, sum_map_sub, List.sum_map_mul_left, map_zip_snd x y h (fun b => b - meanList y),
        map_zip_fst x y h (fun a => a - meanList x), sum_center, sum_center, mul_zero,
        sub_zero]
    have hrmean : meanList (ols_resid x y) = 0 := by
      rw [meanList, hrsum, zero_div]
    rw [covList, hrmean, hr, zip_map_snd, List.map_map]
    have hexp2 : ∀ p ∈ x.zip y,
        ((fun q : ℚ × ℚ => (q.1 - meanList x) * (q.2 - 0)) ∘
          (fun p : ℚ × ℚ => (p.1, p.2 - meanList y - c * (p.1 - meanList x)))) p
          = (fun p : ℚ × ℚ => (p.1 - meanList x) * (p.2 - meanList y)) p
            - (fun p : ℚ × ℚ => c * ((p.1 - meanList x) ^ 2)) p := by
      intro p hp
      simp only [Function.comp]
      ring
    rw [List.map_congr_left hexp2, sum_map_sub, List.sum_map_mul_left,
      map_zip_fst x y h (fun a => (a - meanList x) ^ 2), ← hc]
    field_simp

/-! ### Feature-column bookkeeping for the regression loop -/

theorem featureCols_nodup (cols : List (String × List ℚ))
    (hN : (cols.map Prod.fst).Nodup) : (featureCols cols).Nodup := by
  apply List.Nodup.sublist _ hN
  rw [featureCols]
  exact List.Sublist.map Prod.fst (List.filter_sublist cols)

theorem mem_featureCols_of_get (cols : List (String × List ℚ)) (j : ℕ) (hj : j < cols.length)
    (hfeat : isFeature (cols.get ⟨j, hj⟩).1 = true) :
    (cols.get ⟨j, hj⟩).1 ∈ featureCols cols := by
  rw [featureCols]
  exact List.mem_map.mpr ⟨cols.get ⟨j, hj⟩,
    List.mem_filter.mpr ⟨List.get_mem cols j hj, hfeat⟩, rfl⟩

theorem not_mem_featureCols (cols : List (String × List ℚ)) (nm : String)
    (hnm : isFeature nm = false) : nm ∉ featureCols cols := by
  intro hmem
  rw [featureCols] at hmem
  rcases List.mem_map.mp hmem with ⟨c, hc, hcn⟩
  have := (List.mem_filter.mp hc).2
  rw [hcn] at this
  rw [this] at hnm
  exact Bool.true_eq_false.mp hnm

theorem nodup_split {α : Type} [DecidableEq α] (fs : List α) (a : α)
    (hN : fs.Nodup) (hmem : a ∈ fs) :
    ∃ l1 l2, fs = l1 ++ a :: l2 ∧ a ∉ l1 ∧ a ∉ l2 ∧ l1 ⊆ fs := by
  rcases List.append_of_mem hmem with ⟨l1, l2, rfl⟩
  have h1 := List.nodup_append.mp hN
  have h2 : a ∉ l2 := (List.nodup_cons.mp h1.2.1).1
  have h3 : a ∉ l1 := by
    intro ha
    exact h1.2.2 ha (List.mem_cons_self a l2)
  exact ⟨l1, l2, rfl, h3, h2, fun b hb => List.mem_append_left _ hb⟩

theorem length_regress (df : DataFrame) (cc : String) (rn : Option String) :
    (regress_out_cell_counts df cc rn).cols.length = df.cols.length := by
  simp only [regress_out_cell_counts]
  cases rn with
  | none => simp [length_foldl]
  | some nm => simp [length_foldl]

theorem snd_get_rename (cols1 : List (String × List ℚ)) (cc nm : String)
    (j : ℕ) (hj : j < cols1.length)
    (hj2 : j < (cols1.map (fun c => if c.1 == cc then (nm, c.2) else c)).length) :
    ((cols1.map (fun c => if c.1 == cc then (nm, c.2) else c)).get ⟨j, hj2⟩).2
      = (cols1.get ⟨j, hj⟩).2 := by
  simp only [List.get_eq_getElem, List.getElem_map]
  by_cases h : cols1[j].1 = cc <;> simp [h]

/-- When the cell-count column is not itself a feature column, every
feature column of the output holds the OLS residuals of its original
values against the original cell-count values. -/
theorem regress_get_feature (df : DataFrame) (cc : String) (rn : Option String)
    (hN : (df.cols.map Prod.fst).Nodup) (hccF : isFeature cc = false)
    (j : ℕ) (hj : j < df.cols.length)
    (hfeat : isFeature (df.cols.get ⟨j, hj⟩).1 = true)
    (hj2 : j < (regress_out_cell_counts df cc rn).cols.length) :
    ((regress_out_cell_counts df cc rn).cols.get ⟨j, hj2⟩).2
      = ols_resid (getColVals df.cols cc) (df.cols.get ⟨j, hj⟩).2 := by
  have hmemf : (df.cols.get ⟨j, hj⟩).1 ∈ featureCols df.cols :=
    mem_featureCols_of_get df.cols j hj hfeat
  have hndf : (featureCols df.cols).Nodup := featureCols_nodup df.cols hN
  rcases nodup_split (featureCols df.cols) _ hndf hmemf with ⟨l1, l2, hsplit, hf1, hf2, hsub⟩
  have hcc1 : cc ∉ l1 := fun hc => not_mem_featureCols df.cols cc hccF (hsub hc)
  have hj1 : j < ((l1 ++ (df.cols.get ⟨j, hj⟩).1 :: l2).foldl (regressStep cc)
      df.cols).length := by
    rw [length_foldl]
    exact hj
  have hcols1 := foldl_process_once cc (df.cols.get ⟨j, hj⟩).1 df.cols hN l1 l2 hf1 hf2 hcc1
    j hj hj1 rfl
  cases rn with
  | none =>
    have h2 : (regress_out_cell_counts df cc none).cols
        = (l1 ++ (df.cols.get ⟨j, hj⟩).1 :: l2).foldl (regressStep cc) df.cols := by
      simp only [regress_out_cell_counts]
      rw [hsplit]
    rw [List.get_of_eq h2]
    exact congrArg Prod.snd hcols1
  | some nm =>
    have h2 : (regress_out_cell_counts df cc (some nm)).cols
        = ((l1 ++ (df.cols.get ⟨j, hj⟩).1 :: l2).foldl (regressStep cc) df.cols).map
            (fun c => if c.1 == cc then (nm, c.2) else c) := by
      simp only [regress_out_cell_counts]
      rw [hsplit]
    rw [List.get_of_eq h2]
    exact (snd_get_rename _ cc nm j hj1 (by simpa using hj1)).trans
      (congrArg Prod.snd hcols1)

/-- **C2 (amended).** When the cell-count column is not itself a feature
column (its name carries the `Metadata_` prefix, so the loop does not
residualize it), every feature column of `regress_out_cell_counts`'s
output holds the OLS residuals of the feature against the table's
original cell-count column, and the Pearson-correlation numerator of the
residuals with the cell-count column is exactly zero in rational
arithmetic — so the Pearson correlation is zero whenever it is defined.
(The unrestricted claim is refuted by `regress_uncorrelated_cex`.) -/
theorem regress_resid_uncorrelated (df : DataFrame) (cc : String) (rn : Option String)
    (hN : (df.cols.map Prod.fst).Nodup)
    (hccF : isFeature cc = false)
    (hccMem : cc ∈ df.cols.map Prod.fst)
    (hlen : ∀ c ∈ df.cols, c.2.length = (getColVals df.cols cc).length)
    (j : ℕ) (hj : j < df.cols.length)
    (hfeat : isFeature (df.cols.get ⟨j, hj⟩).1 = true)
    (hj2 : j < (regress_out_cell_counts df cc rn).cols.length) :
    ((regress_out_cell_counts df cc rn).cols.get ⟨j, hj2⟩).2
        = ols_resid (getColVals df.cols cc) (df.cols.get ⟨j, hj⟩).2
      ∧ covList (getColVals df.cols cc)
          (((regress_out_cell_counts df cc rn).cols.get ⟨j, hj2⟩).2) = 0 := by
  have h1 := regress_get_feature df cc rn hN hccF j hj hfeat hj2
  refine ⟨h1, ?_⟩
  rw [h1]
  exact covList_ols_resid _ _ (hlen (df.cols.get ⟨j, hj⟩) (List.get_mem df.cols j hj)).symm

/-- Counterexample to **C2** as stated: on the table with columns
`Cells = [1, 2, 3]` and `F = [1, 2, 3]` and cell-count column `Cells`
(a feature column, since it lacks the `Metadata_` prefix), the loop
first zeroes `Cells` by regressing it on itself, so `F` is then
regressed on an all-zero column and ends up as `[-1, 0, 1]`, whose
Pearson-correlation numerator with the original cell counts is `2 ≠ 0`
with both variance factors nonzero — in fact the squared correlation is
`1`, not `0`. -/
theorem regress_uncorrelated_cex :
    (regress_out_cell_counts ⟨["A1", "A1", "A1"],
        [("Cells", [1, 2, 3]), ("F", [1, 2, 3])]⟩ "Cells" none).cols
        = [("Cells", [0, 0, 0]), ("F", [-1, 0, 1])]
      ∧ covList [1, 2, 3] [-1, 0, 1] = 2
      ∧ covList [1, 2, 3] [-1, 0, 1] ≠ 0
      ∧ varList [1, 2, 3] = 2
      ∧ varList [-1, 0, 1] = 2
      ∧ (covList [1, 2, 3] [-1, 0, 1]) ^ 2 = varList [1, 2, 3] * varList [-1, 0, 1] := by
  refine ⟨?_, ?_, ?_, ?_, ?_, ?_⟩
  · have hf : isFeature "Cells" = true := by decide
    have hf2 : isFeature "F" = true := by decide
    simp [regress_out_cell_counts, featureCols, hf, hf2, regressStep, setCol, getColVals,
      ols_resid, meanList]
    norm_num
  all_goals norm_num [covList, varList, meanList]

/-- Witness for `regress_resid_uncorrelated` on a table whose cell-count
column is `Metadata_Count`. -/
theorem regress_resid_uncorrelated_witness :
    isFeature "Metadata_Count" = false
      ∧ covList (getColVals [("Metadata_Count", [1, 2]), ("F", [2, 4])] "Metadata_Count")
          (((regress_out_cell_counts ⟨["A1", "A1"],
              [("Metadata_Count", [1, 2]), ("F", [2, 4])]⟩ "Metadata_Count" none).cols.get
            ⟨1, by rw [length_regress]; decide⟩).2) = 0 :=
  ⟨by decide,
    (regress_resid_uncorrelated ⟨["A1", "A1"], [("Metadata_Count", [1, 2]), ("F", [2, 4])]⟩
      "Metadata_Count" none (by decide) (by decide) (by decide) (by decide) 1 (by decide)
      (by decide) (by rw [length_regress]; decide)).2⟩

/-- **C1 (amended).** `regress_out_cell_counts(df, "Cells",
"Cells_Used")` does produce a column named `Cells_Used` and leaves no
column named `Cells`; but because `"Cells"` lacks the `Metadata_` prefix
it is itself a feature column, so before the rename it is replaced by
the residuals of the regression of `Cells` on itself, which are
identically zero — `Cells_Used` therefore holds zeros, not the original
cell-count values (see `regress_rename_cells_cex`). -/
theorem regress_rename_cells (df : DataFrame)
    (hN : (df.cols.map Prod.fst).Nodup)
    (hmem : "Cells" ∈ df.cols.map Prod.fst) :
    (∃ vals, ("Cells_Used", vals) ∈ (regress_out_cell_counts df "Cells"
          (some "Cells_Used")).cols
        ∧ ∀ q ∈ vals, q = 0)
      ∧ "Cells" ∉ (regress_out_cell_counts df "Cells"
          (some "Cells_Used")).cols.map Prod.fst := by
  constructor
  · rcases List.mem_map.mp hmem with ⟨c, hcmem, hc1⟩
    rcases List.mem_iff_get.mp hcmem with ⟨⟨j, hj⟩, hcj⟩
    have hname : (df.cols.get ⟨j, hj⟩).1 = "Cells" := by rw [hcj, hc1]
    have hfeat : isFeature (df.cols.get ⟨j, hj⟩).1 = true := by
      rw [hname]
      decide
    have hmemf : "Cells" ∈ featureCols df.cols :=
      hname ▸ mem_featureCols_of_get df.cols j hj hfeat
    have hndf : (featureCols df.cols).Nodup := featureCols_nodup df.cols hN
    rcases nodup_split (featureCols df.cols) _ hndf hmemf with ⟨l1, l2, hsplit, hf1, hf2, hsub⟩
    have hj1 : j < ((l1 ++ "Cells" :: l2).foldl (regressStep "Cells") df.cols).length := by
      rw [length_foldl]
      exact hj
    have hcols1 := foldl_process_once "Cells" "Cells" df.cols hN l1 l2
      hf1 hf2 hf1 j hj hj1 hname
    have hv : getColVals df.cols "Cells" = (df.cols.get ⟨j, hj⟩).2 := by
      have h0 := getColVals_of_get df.cols hN j hj
      rw [hname] at h0
      exact h0
    have hself : ols_resid (getColVals df.cols "Cells") (df.cols.get ⟨j, hj⟩).2
        = (df.cols.get ⟨j, hj⟩).2.map (fun _ => 0) := by
      rw [hv]
      exact ols_resid_self _
    have h2 : (regress_out_cell_counts df "Cells" (some "Cells_Used")).cols
        = ((l1 ++ "Cells" :: l2).foldl (regressStep "Cells") df.cols).map
            (fun c => if c.1 == "Cells" then ("Cells_Used", c.2) else c) := by
      simp only [regress_out_cell_counts]
      rw [hsplit]
    have hj3 : j < (regress_out_cell_counts df "Cells" (some "Cells_Used")).cols.length := by
      rw [length_regress]
      exact hj
    refine ⟨(df.cols.get ⟨j, hj⟩).2.map (fun _ => 0), ?_, by simp⟩
    have hgetout : (regress_out_cell_counts df "Cells" (some "Cells_Used")).cols.get ⟨j, hj3⟩
        = ("Cells_Used", (df.cols.get ⟨j, hj⟩).2.map (fun _ => 0)) := by
      rw [List.get_of_eq h2]
      have hY : ((l1 ++ "Cells" :: l2).foldl (regressStep "Cells") df.cols).get ⟨j, hj1⟩
          = ("Cells", (df.cols.get ⟨j, hj⟩).2.map (fun _ => 0)) := by
        rw [hself] at hcols1
        exact hcols1
      have hmap : (((l1 ++ "Cells" :: l2).foldl (regressStep "Cells") df.cols).map
          (fun c => if c.1 == "Cells" then ("Cells_Used", c.2) else c)).get
            ⟨j, by simpa using hj1⟩
          = (fun c => if c.1 == "Cells" then ("Cells_Used", c.2) else c)
              (((l1 ++ "Cells" :: l2).foldl (regressStep "Cells") df.cols).get ⟨j, hj1⟩) := by
        simp
      rw [hmap, hY]
      simp
    rw [← hgetout]
    exact List.get_mem _ _ _
  · intro hbad
    have h2 : (regress_out_cell_counts df "Cells" (some "Cells_Used")).cols
        = ((featureCols df.cols).foldl (regressStep "Cells") df.cols).map
            (fun c => if c.1 == "Cells" then ("Cells_Used", c.2) else c) := by
      simp only [regress_out_cell_counts]
    rw [h2] at hbad
    rcases List.mem_map.mp hbad with ⟨c1, hc1, hcf⟩
    rcases List.mem_map.mp hc1 with ⟨c0, hc0, rfl⟩
    by_cases hc : c0.1 = "Cells"
    · rw [if_pos (by simpa using hc)] at hcf
      simp only [] at hcf
      have hne : ("Cells_Used" : String) ≠ "Cells" := by decide
      exact hne hcf
    · rw [if_neg (by simpa using hc)] at hcf
      exact hc hcf

/-- Counterexample to **C1** as stated: on the table with single column
`Cells = [1, 2]`, the output's only column is `Cells_Used` with values
`[0, 0]`, which differ from the original cell counts `[1, 2]`. -/
theorem regress_rename_cells_cex :
    (regress_out_cell_counts ⟨["A1", "A1"], [("Cells", [1, 2])]⟩ "Cells"
        (some "Cells_Used")).cols = [("Cells_Used", [0, 0])]
      ∧ ([0, 0] : List ℚ) ≠ [1, 2] := by
  constructor
  · have hf : isFeature "Cells" = true := by decide
    simp [regress_out_cell_counts, featureCols, hf, regressStep, setCol, getColVals,
      ols_resid, meanList]
    norm_num
  · norm_num

/-- Witness for `regress_rename_cells` on the single-column table
`Cells = [1, 2]`. -/
theorem regress_rename_cells_witness :
    (List.map Prod.fst [("Cells", ([1, 2] : List ℚ))]).Nodup
      ∧ "Cells" ∈ List.map Prod.fst [("Cells", ([1, 2] : List ℚ))]
      ∧ "Cells" ∉ (regress_out_cell_counts ⟨["A1", "A1"], [("Cells", [1, 2])]⟩ "Cells"
            (some "Cells_Used")).cols.map Prod.fst :=
  ⟨by decide, by decide,
    (regress_rename_cells ⟨["A1", "A1"], [("Cells", [1, 2])]⟩ (by decide) (by decide)).2⟩

/-! ### `load` (`1.load/load.py`): argument checks and query construction -/

/-- A dynamically typed Python argument value, as far as `load`'s
`isinstance` checks distinguish them. -/
inductive PyVal where
  | pyStr (s : String)
  | pyList (l : List String)
  | pyOther
deriving DecidableEq

/-- Python's `s.endswith(suffix)`. -/
def strEndsWith (s suffix : String) : Bool := List.isSuffixOf suffix.data s.data

/-- The remote query `load` would issue after its checks pass: the
object-store path handed to `pyarrow.dataset.dataset`, the field names
of the `DirectoryPartitioning` schema, and the pass-through `columns`
and `output` arguments.  The network interaction itself is out of
scope. -/
structure QuerySpec where
  path : String
  partitionFields : List String
  columns : Option PyVal
  output : Option PyVal
deriving DecidableEq

/-- `load` from `load.py`: the four `assert` blocks in source order
(`output` must be a string ending in `.parquet`; `columns` must be a
list; `component` must be `profiles` or `load_data_csv`; `plate`
requires `batch`), then the `dataset_source` path construction and the
partitioning schema.  An `assert` failure is an `Except.error` carrying
the assert's message, raised before the query is built. -/
def load (dataset source component : String) (batch plate : Option String)
    (columns output : Option PyVal) : Except String QuerySpec :=
  let rest3 : Except String QuerySpec :=
    let ds0 := "cellpainting-gallery/" ++ dataset ++ "/" ++ source ++ "/workspace/profiles"
    let ds1 := (match batch, plate with
      | none, _ => ds0
      | some b, none => ds0 ++ "/" ++ b
      | some b, some p => ds0 ++ "/" ++ b ++ "/" ++ p)
    Except.ok (QuerySpec.mk ds1
      ["dataset", "source", "workspace", component, "batch", "plate"] columns output)
  let rest2 : Except String QuerySpec :=
    match batch, plate with
    | none, some _ => Except.error "`plate` must be None if `batch` is None"
    | _, _ => rest3
  let rest1 : Except String QuerySpec :=
    if component == "profiles" || component == "load_data_csv" then rest2
    else Except.error "`component` must be 'profiles' or 'load_data_csv'"
  let rest0 : Except String QuerySpec :=
    match columns with
    | none => rest1
    | some (PyVal.pyList _) => rest1
    | some _ => Except.error "`columns` must be a list"
  match output with
  | none => rest0
  | some (PyVal.pyStr s) =>
      if strEndsWith s ".parquet" then rest0
      else Except.error "`output` must end with .parquet"
  | some _ => Except.error "`output` must be a string"

/-- A successful `load` implies every precondition held. -/
theorem load_ok_inversion (dataset source component : String) (batch plate : Option String)
    (columns output : Option PyVal) (q : QuerySpec)
    (h : load dataset source component batch plate columns output = Except.ok q) :
    (component = "profiles" ∨ component = "load_data_csv")
      ∧ (∀ s, output = some (PyVal.pyStr s) → strEndsWith s ".parquet" = true)
      ∧ (∀ c, columns = some c → ∃ l, c = PyVal.pyList l)
      ∧ (batch = none → plate = none) := by
  simp only [load] at h
  rcases output with _ | ov
  all_goals try rcases ov with s | l | _
  all_goals try by_cases he : strEndsWith s ".parquet" = true
  all_goals rcases columns with _ | cv
  all_goals try rcases cv with s2 | l2 | _
  all_goals rcases batch with _ | b
  all_goals rcases plate with _ | p
  all_goals by_cases hc : (component == "profiles" || component == "load_data_csv") = true
  all_goals simp_all

/-- The object-store path the claims describe:
`cellpainting-gallery/{dataset}/{source}/workspace/profiles`, extended
by `batch` and then `plate` when given.  `component` does not occur. -/
def gallery_path (dataset source : String) (batch plate : Option String) : String :=
  match batch, plate with
  | none, _ =>
      "cellpainting-gallery/" ++ dataset ++ "/" ++ source ++ "/workspace/profiles"
  | some b, none =>
      "cellpainting-gallery/" ++ dataset ++ "/" ++ source ++ "/workspace/profiles"
        ++ "/" ++ b
  | some b, some p =>
      "cellpainting-gallery/" ++ dataset ++ "/" ++ source ++ "/workspace/profiles"
        ++ "/" ++ b ++ "/" ++ p

/-- A successful `load` returns exactly the query with the
`gallery_path` and the six-field partitioning schema whose fourth field
is the component name. -/
theorem load_ok_val (dataset source component : String) (batch plate : Option String)
    (columns output : Option PyVal) (q : QuerySpec)
    (h : load dataset source component batch plate columns output = Except.ok q) :
    q = QuerySpec.mk (gallery_path dataset source batch plate)
      ["dataset", "source", "workspace", component, "batch", "plate"] columns output := by
  simp only [load] at h
  rcases output with _ | ov
  all_goals try rcases ov with s | l | _
  all_goals try by_cases he : strEndsWith s ".parquet" = true
  all_goals rcases columns with _ | cv
  all_goals try rcases cv with s2 | l2 | _
  all_goals rcases batch with _ | b
  all_goals rcases plate with _ | p
  all_goals by_cases hc : (component == "profiles" || component == "load_data_csv") = true
  all_goals simp_all [QuerySpec.mk.injEq, gallery_path]

/-- **C8.** Whenever one of the four preconditions is violated — bad
`component`, `output` given without the `.parquet` suffix, `columns`
given but not a list, or `plate` given without `batch` — `load` returns
the corresponding descriptive error; no `QuerySpec` (hence no remote
query) is ever produced. -/
theorem load_checks_fail (dataset source component : String) (batch plate : Option String)
    (columns output : Option PyVal)
    (hbad : (component ≠ "profiles" ∧ component ≠ "load_data_csv")
        ∨ (∃ s, output = some (PyVal.pyStr s) ∧ strEndsWith s ".parquet" = false)
        ∨ (∃ c, columns = some c ∧ ∀ l, c ≠ PyVal.pyList l)
        ∨ (plate ≠ none ∧ batch = none)) :
    ∃ msg, load dataset source component batch plate columns output = Except.error msg := by
  cases hres : load dataset source component batch plate columns output with
  | error m => exact ⟨m, rfl⟩
  | ok q =>
    exfalso
    have hinv := load_ok_inversion dataset source component batch plate columns output q hres
    rcases hbad with ⟨h1, h2⟩ | ⟨s, hs, hse⟩ | ⟨c, hc, hcl⟩ | ⟨hp, hb⟩
    · rcases hinv.1 with h | h
      exacts [h1 h, h2 h]
    · have hgood := hinv.2.1 s hs
      rw [hgood] at hse
      exact Bool.true_eq_false.mp hse
    · rcases hinv.2.2.1 c hc with ⟨l, rfl⟩
      exact hcl l rfl
    · exact hp (hinv.2.2.2 hb)

/-- Witness for `load_checks_fail`: component `"bogus"` is rejected. -/
theorem load_checks_fail_witness :
    (("bogus" : String) ≠ "profiles" ∧ ("bogus" : String) ≠ "load_data_csv")
      ∧ ∃ msg, load "d" "s" "bogus" none none none none = Except.error msg :=
  ⟨⟨by decide, by decide⟩,
    load_checks_fail "d" "s" "bogus" none none none none (Or.inl ⟨by decide, by decide⟩)⟩

/-- **C9.** For calls that pass the checks, the queried path is
`cellpainting-gallery/{dataset}/{source}/workspace/profiles` (extended
by batch and plate when given) for both `"profiles"` and
`"load_data_csv"`; the component name only enters the partitioning
schema's fourth field, never the path, and `columns`/`output` are passed
through unchanged. -/
theorem load_component_path (dataset source : String) (batch plate : Option String)
    (columns output : Option PyVal) (q1 q2 : QuerySpec)
    (h1 : load dataset source "profiles" batch plate columns output = Except.ok q1)
    (h2 : load dataset source "load_data_csv" batch plate columns output = Except.ok q2) :
    q1.path = q2.path
      ∧ q1.path = gallery_path dataset source batch plate
      ∧ q1.partitionFields = ["dataset", "source", "workspace", "profiles", "batch", "plate"]
      ∧ q2.partitionFields
          = ["dataset", "source", "workspace", "load_data_csv", "batch", "plate"]
      ∧ q1.columns = q2.columns ∧ q1.output = q2.output := by
  have e1 := load_ok_val dataset source "profiles" batch plate columns output q1 h1
  have e2 := load_ok_val dataset source "load_data_csv" batch plate columns output q2 h2
  subst e1
  subst e2
  exact ⟨rfl, rfl, rfl, rfl, rfl, rfl⟩

/-- Witness for `load_component_path` on the example call of the
source's usage comment. -/
theorem load_component_path_witness :
    load "cpg0016-jump" "source_4" "profiles" (some "B1") (some "P1") none none
        = Except.ok (QuerySpec.mk
            "cellpainting-gallery/cpg0016-jump/source_4/workspace/profiles/B1/P1"
            ["dataset", "source", "workspace", "profiles", "batch", "plate"] none none)
      ∧ load "cpg0016-jump" "source_4" "load_data_csv" (some "B1") (some "P1") none none
        = Except.ok (QuerySpec.mk
            "cellpainting-gallery/cpg0016-jump/source_4/workspace/profiles/B1/P1"
            ["dataset", "source", "workspace", "load_data_csv", "batch", "plate"] none none)
      ∧ (QuerySpec.mk
            "cellpainting-gallery/cpg0016-jump/source_4/workspace/profiles/B1/P1"
            ["dataset", "source", "workspace", "profiles", "batch", "plate"]
            (none : Option PyVal) (none : Option PyVal)).path
        = (QuerySpec.mk
            "cellpainting-gallery/cpg0016-jump/source_4/workspace/profiles/B1/P1"
            ["dataset", "source", "workspace", "load_data_csv", "batch", "plate"]
            (none : Option PyVal) (none : Option PyVal)).path :=
  ⟨by rfl, by rfl,
    (load_component_path "cpg0016-jump" "source_4" (some "B1") (some "P1") none none
      _ _ (by rfl) (by rfl)).1⟩

end PositionEffect
